import Mathlib

/-!
Verification of `src/api/web_hook/wiki_data_processor.py`.

The Python module is shallowly embedded: strings are modelled as `List Char`,
each `re.sub`/`re.search` call is translated into an executable scanning
function with the same leftmost / lazy / greedy behaviour as the Python
pattern it embeds, `xml.etree.ElementTree` is modelled by an explicit element
tree together with a recursive-descent reader for the tag/attribute/text
subset the module feeds it, and the report writer's file handling is modelled
by an explicit I/O outcome model (open/write failures injected as data).
-/

namespace WikiProc

/-- Python whitespace (`\s`, `str.strip`, `str.isspace`): ASCII whitespace
plus the Unicode space characters Python treats as whitespace. -/
def isPySpace (c : Char) : Bool :=
  c = ' ' || c = '\t' || c = '\n' || c = '\r' || c = '\x0b' || c = '\x0c' ||
  c = '\x1c' || c = '\x1d' || c = '\x1e' || c = '\x1f' || c = '\x85' ||
  c = ' ' || c = ' ' || (' ' ≤ c && c ≤ ' ') ||
  c = ' ' || c = ' ' || c = ' ' || c = ' ' || c = '　'

/-- Boolean test that `p` is a prefix of `s` (first argument is the pattern). -/
def startsWithL : List Char → List Char → Bool
  | [], _ => true
  | _ :: _, [] => false
  | p :: ps, c :: cs => p = c && startsWithL ps cs

/-- First occurrence of `pat` inside `s`: returns `some (a, b)` with
`s = a ++ pat ++ b` and `a` shortest, `none` if `pat` never occurs.
This is the leftmost-match engine shared by every embedded regex. -/
def splitOnSub (pat : List Char) : List Char → Option (List Char × List Char)
  | [] => if pat = [] then some ([], []) else none
  | c :: r =>
    if startsWithL pat (c :: r) then some ([], (c :: r).drop pat.length)
    else
      match splitOnSub pat r with
      | some (a, b) => some (c :: a, b)
      | none => none

/-- Python `str.strip` on the right end: removes the trailing run of
whitespace characters. -/
def stripTrailing : List Char → List Char
  | [] => []
  | c :: r =>
    let t := stripTrailing r
    if t = [] && isPySpace c then [] else c :: t

/-- Python `str.strip()`: drop leading and trailing whitespace. -/
def pyStripL (s : List Char) : List Char :=
  ((s.dropWhile isPySpace).reverse.dropWhile isPySpace).reverse

theorem dropWhile_append_char (p : Char → Bool) (xs ys : List Char) :
    (xs ++ ys).dropWhile p =
      if xs.dropWhile p = [] then ys.dropWhile p else xs.dropWhile p ++ ys := by
  induction xs with
  | nil => simp
  | cons c xs ih =>
    by_cases h : p c
    · rw [List.cons_append, List.dropWhile_cons, if_pos h, ih, List.dropWhile_cons,
        if_pos h]
    · rw [List.cons_append, List.dropWhile_cons, if_neg h, List.dropWhile_cons,
        if_neg h]
      simp

/-- The right-end strip expressed as a structural recursion (used for
induction proofs). -/
theorem pyStripL_eq_stripTrailing (s : List Char) :
    pyStripL s = stripTrailing (s.dropWhile isPySpace) := by
  suffices h : ∀ l : List Char, (l.reverse.dropWhile isPySpace).reverse = stripTrailing l by
    rw [pyStripL, h]
  intro l
  induction l with
  | nil => rfl
  | cons c r ih =>
    rw [stripTrailing]
    simp only [List.reverse_cons]
    rw [dropWhile_append_char]
    by_cases h0 : r.reverse.dropWhile isPySpace = []
    · rw [if_pos h0]
      have hr : stripTrailing r = [] := by rw [← ih, h0]; rfl
      rw [hr]
      by_cases hc : isPySpace c
      · simp [List.dropWhile, hc]
      · simp [List.dropWhile, hc]
    · rw [if_neg h0]
      have hr : stripTrailing r ≠ [] := by
        rw [← ih]
        simp only [ne_eq, List.reverse_eq_nil_iff]
        exact h0
      rw [List.reverse_append, List.reverse_cons, List.reverse_nil, List.nil_append,
        List.singleton_append, ih]
      simp [hr]

theorem startsWithL_eq_true {p s : List Char} (h : startsWithL p s = true) :
    ∃ t, s = p ++ t := by
  induction p generalizing s with
  | nil => exact ⟨s, rfl⟩
  | cons c ps ih =>
    cases s with
    | nil => simp [startsWithL] at h
    | cons d ds =>
      simp only [startsWithL, Bool.and_eq_true, decide_eq_true_eq] at h
      obtain ⟨t, ht⟩ := ih h.2
      exact ⟨t, by simp [h.1, ht]⟩

theorem startsWithL_append (p t : List Char) : startsWithL p (p ++ t) = true := by
  induction p with
  | nil => rfl
  | cons c ps ih => simp [startsWithL, ih]

theorem splitOnSub_eq_some {pat s a b : List Char}
    (h : splitOnSub pat s = some (a, b)) : s = a ++ pat ++ b := by
  induction s generalizing a b with
  | nil =>
    simp only [splitOnSub] at h
    by_cases hp : pat = []
    · rw [if_pos hp] at h
      injection h with h'
      injection h' with h1 h2
      rw [← h1, ← h2, hp]
      rfl
    · rw [if_neg hp] at h
      cases h
  | cons c r ih =>
    simp only [splitOnSub] at h
    by_cases hsw : startsWithL pat (c :: r) = true
    · rw [if_pos hsw] at h
      injection h with h'
      injection h' with h1 h2
      obtain ⟨t, ht⟩ := startsWithL_eq_true hsw
      rw [ht, List.drop_left] at h2
      rw [← h1, ← h2, ht]
      rfl
    · rw [if_neg hsw] at h
      cases hrec : splitOnSub pat r with
      | none => rw [hrec] at h; cases h
      | some ab =>
        obtain ⟨av, bv⟩ := ab
        rw [hrec] at h
        injection h with h'
        injection h' with h1 h2
        rw [← h1, ← h2]
        have := ih hrec
        rw [List.cons_append, List.cons_append, ← this]

theorem splitOnSub_minimal {pat s a b : List Char}
    (h : splitOnSub pat s = some (a, b)) :
    ∀ a' b', s = a' ++ pat ++ b' → a.length ≤ a'.length := by
  induction s generalizing a b with
  | nil =>
    intro a' b' _
    simp only [splitOnSub] at h
    by_cases hp : pat = []
    · rw [if_pos hp] at h
      injection h with h'
      injection h' with h1 _
      rw [← h1]
      simp
    · rw [if_neg hp] at h
      cases h
  | cons c r ih =>
    intro a' b' hs
    simp only [splitOnSub] at h
    by_cases hsw : startsWithL pat (c :: r) = true
    · rw [if_pos hsw] at h
      injection h with h'
      injection h' with h1 _
      rw [← h1]
      simp
    · rw [if_neg hsw] at h
      cases hrec : splitOnSub pat r with
      | none => rw [hrec] at h; cases h
      | some ab =>
        obtain ⟨av, bv⟩ := ab
        rw [hrec] at h
        injection h with h'
        injection h' with h1 h2
        cases a' with
        | nil =>
          exfalso
          apply hsw
          rw [List.nil_append] at hs
          rw [hs]
          exact startsWithL_append pat b'
        | cons d a'' =>
          simp only [List.cons_append] at hs
          injection hs with hcd hr
          have := ih hrec a'' b' hr
          rw [← h1]
          simp only [List.length_cons]
          omega

theorem splitOnSub_isSome {pat s : List Char} (a b : List Char)
    (hs : s = a ++ pat ++ b) : (splitOnSub pat s).isSome := by
  induction s generalizing a with
  | nil =>
    have hp : pat = [] := by
      cases a <;> cases pat <;> simp_all
    simp [splitOnSub, hp]
  | cons c r ih =>
    by_cases hsw : startsWithL pat (c :: r) = true
    · simp [splitOnSub, hsw]
    · simp only [splitOnSub, if_neg hsw]
      cases a with
      | nil =>
        exfalso
        apply hsw
        rw [List.nil_append] at hs
        rw [hs]
        exact startsWithL_append pat b
      | cons d a'' =>
        simp only [List.cons_append] at hs
        injection hs with hcd hr
        have := ih (a := a'') hr
        cases hx : splitOnSub pat r with
        | none => rw [hx] at this; cases this
        | some ab => simp

/-- Accumulator form of `splitOnSub` (tail recursive, used to evaluate the
scan on long concrete inputs). -/
def splitOnSubAux (pat : List Char) : List Char → List Char → Option (List Char × List Char)
  | acc, [] => if pat = [] then some (acc.reverse, []) else none
  | acc, c :: r =>
    if startsWithL pat (c :: r) then some (acc.reverse, (c :: r).drop pat.length)
    else splitOnSubAux pat (c :: acc) r

theorem splitOnSubAux_eq (pat : List Char) :
    ∀ (acc s : List Char),
      splitOnSubAux pat acc s =
        (splitOnSub pat s).map (fun ab => (acc.reverse ++ ab.1, ab.2)) := by
  intro acc s
  induction s generalizing acc with
  | nil =>
    by_cases hp : pat = [] <;> simp [splitOnSubAux, splitOnSub, hp]
  | cons c r ih =>
    by_cases hsw : startsWithL pat (c :: r) = true
    · simp [splitOnSubAux, splitOnSub, hsw]
    · rw [splitOnSubAux, if_neg hsw, splitOnSub, if_neg hsw, ih]
      cases hrec : splitOnSub pat r with
      | none => rfl
      | some ab => simp

theorem splitOnSub_eq_aux (pat s : List Char) :
    splitOnSub pat s = splitOnSubAux pat [] s := by
  rw [splitOnSubAux_eq]
  cases h : splitOnSub pat s with
  | none => rfl
  | some ab => simp

/-! ## Structure Extractor (`extract_wiki_structure_xml`, source lines 21-55) -/

/-- The `<wiki_structure>` start marker. -/
def openTag : List Char := "<wiki_structure>".data

/-- The `</wiki_structure>` end marker. -/
def closeTag : List Char := "</wiki_structure>".data

/-- Three backticks. -/
def ticks3 : List Char := ['`', '`', '`']

/-- Case-insensitive test that `s` starts with the letters `xml`. -/
def ciStartsXml : List Char → Bool
  | a :: b :: c :: _ => a.toLower = 'x' && b.toLower = 'm' && c.toLower = 'l'
  | _ => false

/-- `re.sub(r'^```(?:xml)?\s*', '', s, flags=re.IGNORECASE)` (no MULTILINE, so
the anchor is the start of the string): drop one leading fence marker, an
optional case-insensitive `xml` tag, and the following whitespace run. -/
def stripLeadingFence (s : List Char) : List Char :=
  if startsWithL ticks3 s then
    (if ciStartsXml (s.drop 3) then (s.drop 3).drop 3 else s.drop 3).dropWhile isPySpace
  else s

/-- `re.sub(r'```\s*$', '', s)`: remove a trailing fence marker followed only
by whitespace.  (`$` with `\s*` greedy means: strip the whitespace suffix; if
three backticks now end the string, remove them together with that
whitespace, else leave the string unchanged.) -/
def stripTrailingFence (s : List Char) : List Char :=
  let rev := s.reverse
  let u := rev.dropWhile isPySpace
  if startsWithL ticks3 u then (u.drop 3).reverse else s

/-- Both fence-stripping substitutions, in source order. -/
def stripFences (s : List Char) : List Char :=
  stripTrailingFence (stripLeadingFence s)

/-- Characters deleted by `re.sub(r'[\x00-\x08\x0B\x0C\x0E-\x1F\x7F]', '', _)`:
the C0 control range except tab/newline/carriage-return, plus DEL. -/
def isStrippedCtrl (c : Char) : Bool :=
  c ≤ '\x08' || c = '\x0b' || c = '\x0c' || ('\x0e' ≤ c && c ≤ '\x1f') || c = '\x7f'

/-- Control-character removal applied to the matched XML block. -/
def removeCtrl (s : List Char) : List Char :=
  s.filter (fun c => !isStrippedCtrl c)

/-- Failure modes of the processing pipeline: the two `ValueError`s of the
extractor (the spec's `EmptyInputError` / `NoStructureFoundError`) and the
parser's propagated parse failure (the spec's `MalformedStructureError`). -/
inductive PipeErr where
  | emptyInput : PipeErr
  | noStructure : PipeErr
  | malformed : String → PipeErr
deriving DecidableEq, Repr

deriving instance DecidableEq for Except

/-- `extract_wiki_structure_xml` (source lines 21-55): reject empty or
whitespace-only input, strip optional code fences, search for the first
`<wiki_structure>…</wiki_structure>` region (lazy inner match), and return it
with control characters removed. -/
def extract_wiki_structure_xml (s : List Char) : Except PipeErr (List Char) :=
  if pyStripL s = [] then .error .emptyInput
  else
    match splitOnSub openTag (stripFences s) with
    | none => .error .noStructure
    | some (_, rest) =>
      match splitOnSub closeTag rest with
      | none => .error .noStructure
      | some (mid, _) => .ok (removeCtrl (openTag ++ mid ++ closeTag))

/-! ## Structure Parser (`parse_wiki_structure`, source lines 58-85)

`xml.etree.ElementTree` elements are modelled as trees carrying tag,
attributes, the text that follows the start tag (`.text`, `none` when that
region is empty), and ordered children.  `ET.fromstring` is modelled by a
recursive-descent reader for the tag/attribute/text subset of XML the module
feeds it.  -/

inductive XTree where
  | node : String → List (String × String) → Option String → List XTree → XTree
deriving Repr

/-- Element tag. -/
def XTree.tag : XTree → String
  | .node t _ _ _ => t

/-- Element attributes, in document order. -/
def XTree.attrs : XTree → List (String × String)
  | .node _ a _ _ => a

/-- `elem.text`: the text between the start tag and the first child or end
tag; `none` when that region is empty. -/
def XTree.text : XTree → Option String
  | .node _ _ tx _ => tx

/-- Ordered child elements. -/
def XTree.children : XTree → List XTree
  | .node _ _ _ cs => cs

mutual

/-- All proper descendant elements in document (preorder) order; this is what
`findall('.//tag')` iterates over. -/
def XTree.descendants : XTree → List XTree
  | .node _ _ _ cs => descendantsList cs

/-- Preorder traversal of a forest. -/
def descendantsList : List XTree → List XTree
  | [] => []
  | c :: rest => c :: (XTree.descendants c ++ descendantsList rest)

end

/-- `elem.find(tag)` for a plain child-tag path: first direct child with the
given tag. -/
def findChild (tag : String) (e : XTree) : Option XTree :=
  e.children.find? (fun c => c.tag == tag)

/-- `elem.findtext(tag, default=dflt)`: text of the first matching child, the
default if no child matches, and the empty string when the child exists but
has no text content. -/
def findtextD (tag : String) (dflt : String) (e : XTree) : String :=
  match findChild tag e with
  | none => dflt
  | some c => c.text.getD ""

/-- `[x.text for x in el.findall('.//tag') if x.text]`: texts of all
descendants with the given tag, skipping falsy (missing or empty) texts. -/
def collectTexts (tag : String) (e : XTree) : List String :=
  (e.descendants.filter (fun d => d.tag == tag)).filterMap
    (fun d =>
      match d.text with
      | some t => if t = "" then none else some t
      | none => none)

/-- One parsed page record (source lines 76-83). -/
structure Page where
  id : String
  title : String
  description : String
  importance : String
  file_paths : List String
  related_pages : List String
deriving DecidableEq, Repr

/-- The per-page dictionary built by the parser loop (source lines 76-83). -/
def parsePage (el : XTree) : Page where
  id := ((el.attrs.find? (fun kv => kv.1 == "id")).map Prod.snd).getD ""
  title := findtextD "title" "" el
  description := findtextD "description" "" el
  importance := findtextD "importance" "medium" el
  file_paths := collectTexts "file_path" el
  related_pages := collectTexts "related" el

/-- XML whitespace. -/
def isXmlSpace (c : Char) : Bool :=
  c = ' ' || c = '\t' || c = '\n' || c = '\r'

/-- Characters allowed in element/attribute names. -/
def isXmlNameChar (c : Char) : Bool :=
  c.isAlphanum || c = '_' || c = '-' || c = ':' || c = '.'

/-- Attribute-list reader: `name="value"` pairs up to `>` or `/>`. -/
def parseAttrsF : Nat → List Char → Except String (List (String × String) × List Char)
  | 0, _ => .error "fuel exhausted"
  | n + 1, s =>
    let s1 := s.dropWhile isXmlSpace
    match s1 with
    | '>' :: _ => .ok ([], s1)
    | '/' :: _ => .ok ([], s1)
    | _ =>
      let nm := s1.takeWhile isXmlNameChar
      let s2 := s1.dropWhile isXmlNameChar
      if nm = [] then .error "expected attribute name"
      else
        match s2 with
        | '=' :: '"' :: s3 =>
          match splitOnSub ['"'] s3 with
          | some (v, s4) =>
            match parseAttrsF n s4 with
            | .ok (as, rest) => .ok ((String.mk nm, String.mk v) :: as, rest)
            | .error e => .error e
          | none => .error "unterminated attribute value"
        | _ => .error "expected attribute value"

mutual

/-- Element reader: start tag, attributes, then either `/>` or content. -/
def parseElemF : Nat → List Char → Except String (XTree × List Char)
  | 0, _ => .error "fuel exhausted"
  | n + 1, s =>
    match s with
    | '<' :: s1 =>
      let nm := s1.takeWhile isXmlNameChar
      let s2 := s1.dropWhile isXmlNameChar
      if nm = [] then .error "expected element name"
      else
        match parseAttrsF n s2 with
        | .error e => .error e
        | .ok (attrs, s3) =>
          match s3 with
          | '/' :: '>' :: s4 => .ok (.node (String.mk nm) attrs none [], s4)
          | '>' :: s4 =>
            let txt := s4.takeWhile (fun c => c ≠ '<')
            let s5 := s4.dropWhile (fun c => c ≠ '<')
            parseKidsF n (String.mk nm) attrs
              (if txt = [] then none else some (String.mk txt)) [] s5
          | _ => .error "malformed start tag"
    | _ => .error "expected element"

/-- Content reader: children and the end tag (inter-child tail text is
dropped; the module never reads `.tail`). -/
def parseKidsF : Nat → String → List (String × String) → Option String →
    List XTree → List Char → Except String (XTree × List Char)
  | 0, _, _, _, _, _ => .error "fuel exhausted"
  | n + 1, tag, attrs, txt, kidsRev, s =>
    match s with
    | '<' :: '/' :: s1 =>
      let nm := s1.takeWhile isXmlNameChar
      let s2 := s1.dropWhile isXmlNameChar
      if String.mk nm ≠ tag then .error "mismatched end tag"
      else
        match s2.dropWhile isXmlSpace with
        | '>' :: s3 => .ok (.node tag attrs txt kidsRev.reverse, s3)
        | _ => .error "malformed end tag"
    | '<' :: _ =>
      match parseElemF n s with
      | .error e => .error e
      | .ok (kid, s2) =>
        let s3 := s2.dropWhile (fun c => c ≠ '<')
        parseKidsF n tag attrs txt (kid :: kidsRev) s3
    | _ => .error "unexpected end of input"

end

/-- `ET.fromstring`: parse a whole document (optionally surrounded by
whitespace) into its root element. -/
def fromstring (s : List Char) : Except String XTree :=
  match parseElemF (s.length + 1) (s.dropWhile isXmlSpace) with
  | .error e => .error e
  | .ok (t, rest) =>
    if rest.dropWhile isXmlSpace = [] then .ok t
    else .error "junk after document element"

/-- `parse_wiki_structure` (source lines 58-85): root title and description
from direct child text, every descendant `page` element (any depth) mapped to
a `Page`. -/
def parse_wiki_structure (xml_text : List Char) :
    Except PipeErr (String × String × List Page) :=
  match fromstring xml_text with
  | .error e => .error (.malformed e)
  | .ok root =>
    .ok (findtextD "title" "" root, findtextD "description" "" root,
         (root.descendants.filter (fun d => d.tag == "page")).map parsePage)

/-! ## Content Normalizer (`clean_and_format_content`, source lines 87-113)

Each `re.sub` is a left-to-right scan: at each position try the pattern; on a
match emit the replacement and continue after the match, otherwise emit the
character and advance.  Each scan carries fuel equal to the input length,
which suffices because every step consumes at least one input character. -/

/-- Step 1 and step 6 engine (`<details>.*?</details>` and
` ```mermaid.*?``` `, both DOTALL with a lazy body): on an occurrence of the
opening marker, delete through the first occurrence of the closing marker. -/
def subBlockF (op cl : List Char) : Nat → List Char → List Char
  | 0, s => s
  | _ + 1, [] => []
  | n + 1, c :: r =>
    if startsWithL op (c :: r) then
      match splitOnSub cl ((c :: r).drop op.length) with
      | some (_, rest) => subBlockF op cl n rest
      | none => c :: subBlockF op cl n r
    else c :: subBlockF op cl n r

/-- `re.sub(r'<details>.*?</details>', '', s, flags=re.DOTALL)`. -/
def subDetails (s : List Char) : List Char :=
  subBlockF "<details>".data "</details>".data s.length s

/-- `re.sub(r'```mermaid.*?```', '', s, flags=re.DOTALL)`. -/
def subMermaid (s : List Char) : List Char :=
  subBlockF "```mermaid".data "```".data s.length s

/-- Case-insensitive literal match (pattern given in lowercase). -/
def ciExpect : List Char → List Char → Option (List Char)
  | [], s => some s
  | _ :: _, [] => none
  | p :: ps, c :: cs => if c.toLower = p then ciExpect ps cs else none

/-- Single match attempt for `` `Sources?: \[[^\]]*?\]\([^)]*?\)` `` with
IGNORECASE: backtick, case-insensitive `Source` with optional `s`, literal
`: `, bracketed run without `]`, parenthesised run without `)`, backtick.
Returns the remainder after the match. -/
def matchSources (s : List Char) : Option (List Char) :=
  match s with
  | [] => none
  | c :: s1 =>
    if c = '`' then
      match ciExpect "source".data s1 with
      | none => none
      | some s2 =>
        let s3opt :=
          match s2 with
          | d :: s2' =>
            if (d = 's' || d = 'S') && startsWithL ": ".data s2' then some (s2'.drop 2)
            else if startsWithL ": ".data s2 then some (s2.drop 2)
            else none
          | [] => none
        match s3opt with
        | none => none
        | some s3 =>
          match s3 with
          | '[' :: s4 =>
            match splitOnSub [']'] s4 with
            | some (_, s5) =>
              match s5 with
              | '(' :: s6 =>
                match splitOnSub [')'] s6 with
                | some (_, s7) =>
                  match s7 with
                  | '`' :: s8 => some s8
                  | _ => none
                | none => none
              | _ => none
            | none => none
          | _ => none
    else none

/-- Scan loop for the `Sources` citation removal. -/
def subSourcesF : Nat → List Char → List Char
  | 0, s => s
  | _ + 1, [] => []
  | n + 1, c :: r =>
    match matchSources (c :: r) with
    | some rest => subSourcesF n rest
    | none => c :: subSourcesF n r

/-- `re.sub(r'`Sources?: \[[^\]]*?\]\([^)]*?\)`', '', s, flags=re.IGNORECASE)`. -/
def subSources (s : List Char) : List Char :=
  subSourcesF s.length s

/-- `[^)]*?\)` within one line-free group: skip to the first `)`, failing on a
newline (`.` does not match `\n` here); returns the remainder after `)`. -/
def scanToParen : List Char → Option (List Char)
  | [] => none
  | c :: r => if c = ')' then some r else if c = '\n' then none else scanToParen r

/-- Lazy `.*?\]\(.*?\)` tail of the image pattern: extend the alt text one
non-newline character at a time, preferring the earliest `](` whose
parenthesised part closes. -/
def imgTail : List Char → Option (List Char)
  | [] => none
  | c :: r =>
    match (if startsWithL "](".data (c :: r) then scanToParen ((c :: r).drop 2) else none) with
    | some rest => some rest
    | none => if c = '\n' then none else imgTail r

/-- Single match attempt for `!\[.*?\]\(.*?\)` (no DOTALL). -/
def matchImg : List Char → Option (List Char)
  | a :: b :: t => if a = '!' && b = '[' then imgTail t else none
  | _ => none

/-- Scan loop for image-markup removal. -/
def subImgF : Nat → List Char → List Char
  | 0, s => s
  | _ + 1, [] => []
  | n + 1, c :: r =>
    match matchImg (c :: r) with
    | some rest => subImgF n rest
    | none => c :: subImgF n r

/-- `re.sub(r'!\[.*?\]\(.*?\)', '', s)`. -/
def subImg (s : List Char) : List Char :=
  subImgF s.length s

/-- `https?://[^\s)]+\)` tail of the link pattern: scheme, then a non-empty
greedy run without whitespace or `)`, then `)`; returns the remainder. -/
def matchUrl (s : List Char) : Option (List Char) :=
  match s with
  | 'h' :: 't' :: 't' :: 'p' :: rest =>
    let rest2 := match rest with
      | 's' :: r2 => r2
      | _ => rest
    if startsWithL "://".data rest2 then
      let afterScheme := rest2.drop 3
      let run := afterScheme.takeWhile (fun c => !isPySpace c && c ≠ ')')
      let tailp := afterScheme.dropWhile (fun c => !isPySpace c && c ≠ ')')
      if run = [] then none
      else
        match tailp with
        | ')' :: r3 => some r3
        | _ => none
    else none
  | _ => none

/-- Lazy `(.*?)\]\(https?://[^\s)]+\)` tail of the link pattern: extend the
label one non-newline character at a time; returns label and remainder. -/
def linkTail : List Char → Option (List Char × List Char)
  | [] => none
  | c :: r =>
    match (if startsWithL "](".data (c :: r) then matchUrl ((c :: r).drop 2) else none) with
    | some rest => some ([], rest)
    | none =>
      if c = '\n' then none
      else
        match linkTail r with
        | some (g, rest) => some (c :: g, rest)
        | none => none

/-- Scan loop for link unwrapping: a match emits its label (group 1). -/
def subLinkF : Nat → List Char → List Char
  | 0, s => s
  | _ + 1, [] => []
  | n + 1, c :: r =>
    if c = '[' then
      match linkTail r with
      | some (g, rest) => g ++ subLinkF n rest
      | none => c :: subLinkF n r
    else c :: subLinkF n r

/-- `re.sub(r'\[(.*?)\]\(https?://[^\s)]+\)', r'\1', s)`. -/
def subLink (s : List Char) : List Char :=
  subLinkF s.length s

/-- Scan loop for `<[^>]*>`: a `<` is deleted through the first following
`>`; a `<` with no later `>` can never match and is kept. -/
def subTagsF : Nat → List Char → List Char
  | 0, s => s
  | _ + 1, [] => []
  | n + 1, c :: r =>
    if c = '<' then
      match splitOnSub ['>'] r with
      | some (_, rest) => subTagsF n rest
      | none => c :: r
    else c :: subTagsF n r

/-- `re.sub(r'<[^>]*>', '', s)`. -/
def subTags (s : List Char) : List Char :=
  subTagsF s.length s

theorem length_dropWhile_le' (p : Char → Bool) (l : List Char) :
    (l.dropWhile p).length ≤ l.length := by
  induction l with
  | nil => simp [List.dropWhile]
  | cons c r ih =>
    by_cases h : p c
    · rw [List.dropWhile_cons, if_pos h]
      exact Nat.le_trans ih (Nat.le_succ _)
    · rw [List.dropWhile_cons, if_neg h]

/-- Scan loop for `\s+` → `' '`: every maximal whitespace run becomes one
space.  Each iteration consumes at least one character, so fuel equal to the
input length always suffices and the fuel-exhausted branch is never taken. -/
def collapseWsF : Nat → List Char → List Char
  | 0, _ => []
  | _ + 1, [] => []
  | n + 1, c :: r =>
    if isPySpace c then ' ' :: collapseWsF n (r.dropWhile isPySpace)
    else c :: collapseWsF n r

/-- `re.sub(r'\s+', ' ', s)`. -/
def collapseWs (s : List Char) : List Char :=
  collapseWsF s.length s

/-- The scan result does not depend on the fuel once the fuel covers the
input length. -/
theorem collapseWsF_irrel :
    ∀ (n m : Nat) (s : List Char), s.length ≤ n → s.length ≤ m →
      collapseWsF n s = collapseWsF m s := by
  intro n
  induction n with
  | zero =>
    intro m s hn _
    rw [List.eq_nil_of_length_eq_zero (Nat.le_zero.mp hn)]
    cases m <;> rfl
  | succ n ih =>
    intro m s hn hm
    cases s with
    | nil => cases m <;> rfl
    | cons c r =>
      cases m with
      | zero => simp at hm
      | succ m =>
        have hrn : r.length ≤ n := by simpa using hn
        have hrm : r.length ≤ m := by simpa using hm
        rw [collapseWsF, collapseWsF]
        by_cases hsp : isPySpace c = true
        · rw [if_pos hsp, if_pos hsp,
            ih m (r.dropWhile isPySpace)
              (Nat.le_trans (length_dropWhile_le' isPySpace r) hrn)
              (Nat.le_trans (length_dropWhile_le' isPySpace r) hrm)]
        · rw [if_neg hsp, if_neg hsp, ih m r hrn hrm]

/-- Structural unfolding of `collapseWs` on a cons cell. -/
theorem collapseWs_cons (c : Char) (r : List Char) :
    collapseWs (c :: r) =
      if isPySpace c then ' ' :: collapseWs (r.dropWhile isPySpace)
      else c :: collapseWs r := by
  rw [collapseWs, collapseWs, collapseWs]
  show collapseWsF (r.length + 1) (c :: r) = _
  rw [collapseWsF]
  by_cases hsp : isPySpace c = true
  · rw [if_pos hsp, if_pos hsp,
      collapseWsF_irrel r.length (r.dropWhile isPySpace).length (r.dropWhile isPySpace)
        (length_dropWhile_le' isPySpace r) (Nat.le_refl _)]
  · rw [if_neg hsp, if_neg hsp]

/-- Last `\n` of a list: `some (a, b)` with `l = a ++ '\n' :: b` and no
newline in `b`. -/
def splitLastNl : List Char → Option (List Char × List Char)
  | [] => none
  | c :: r =>
    match splitLastNl r with
    | some (a, b) => some (c :: a, b)
    | none => if c = '\n' then some ([], r) else none

/-- Scan loop for `\n\s*\n` → `\n\n`: a newline followed by a whitespace run
containing another newline matches through the last newline of that run
(greedy `\s*`). -/
def subBlankF : Nat → List Char → List Char
  | 0, s => s
  | _ + 1, [] => []
  | n + 1, c :: r =>
    if c = '\n' then
      match splitLastNl (r.takeWhile isPySpace) with
      | some (_, b) => '\n' :: '\n' :: subBlankF n (b ++ r.dropWhile isPySpace)
      | none => c :: subBlankF n r
    else c :: subBlankF n r

/-- `re.sub(r'\n\s*\n', '\n\n', s)`. -/
def subBlank (s : List Char) : List Char :=
  subBlankF s.length s

/-- `clean_and_format_content` (source lines 87-113): the eight-step pipeline
followed by `strip()`. -/
def clean_and_format_content (s : List Char) : List Char :=
  pyStripL (subBlank (collapseWs (subMermaid (subTags (subLink (subImg
    (subSources (subDetails s))))))))

/-- String-level wrapper used by the report writer. -/
def cleanStr (s : String) : String :=
  String.mk (clean_and_format_content s.data)

/-! ## Report Writer (`generate_llms_txt`, source lines 115-157)

Page attribute values coming from the untyped input dictionary are modelled
by `PyVal`; the file stream is modelled by an `IOModel` that can make the
open or any single write call raise.  The `try`/`except Exception` wrapper of
the source is the final `match`: every failure is caught and logged, nothing
propagates. -/

/-- An untyped dictionary value as the writer may receive it. -/
inductive PyVal where
  | str : String → PyVal
  | list : List String → PyVal
  | int : Int → PyVal
deriving DecidableEq, Repr

/-- Python `str()` on such a value. -/
def pyStr : PyVal → String
  | .str s => s
  | .int i => toString i
  | .list l =>
    "[" ++ String.intercalate ", " (l.map (fun x => "\x27" ++ x ++ "\x27")) ++ "]"

/-- Python `str.capitalize()`: first character uppercased, the rest
lowercased. -/
def pyCapitalize (s : String) : String :=
  match s.data with
  | [] => ""
  | c :: r => String.mk (c.toUpper :: r.map Char.toLower)

/-- Python `str.title()` on ASCII text: a letter that follows a non-letter is
uppercased, other letters lowercased. -/
def pyTitleAux : Bool → List Char → List Char
  | _, [] => []
  | prevAlpha, c :: r =>
    (if c.isAlpha then (if prevAlpha then c.toLower else c.toUpper) else c) ::
      pyTitleAux c.isAlpha r

/-- Python `str.title()`. -/
def pyTitle (s : String) : String :=
  String.mk (pyTitleAux false s.data)

/-- Python `str.replace('-', ' ')`. -/
def pyReplaceDash (s : String) : String :=
  String.mk (s.data.map (fun c => if c = '-' then ' ' else c))

/-- One page entry of the input dictionary; `none` models a missing key. -/
structure PageData where
  id : Option String := none
  title : Option String := none
  content : Option PyVal := none
  importance : Option PyVal := none
  relatedPages : Option PyVal := none
  filePaths : Option PyVal := none
deriving DecidableEq, Repr

/-- `", ".join(v) if isinstance(v, list) and v else 'None'` applied to
`page_data.get(key, [])` (source lines 138-142). -/
def resolveListField (v : Option PyVal) : String :=
  match v.getD (.list []) with
  | .list (x :: xs) => String.intercalate ", " (x :: xs)
  | _ => "None"

/-- The nine `f.write` payloads emitted for one page (source lines 134-154),
in order. -/
def writesOfPage (page_id : String) (pd : PageData) : List String :=
  let title := pd.title.getD (pyTitle (pyReplaceDash page_id))
  let importance := pd.importance.getD (.str "N/A")
  let related_pages := resolveListField pd.relatedPages
  let file_paths := resolveListField pd.filePaths
  let cleaned_content := cleanStr (pyStr (pd.content.getD (.str "")))
  ["# " ++ title ++ "\n",
   String.mk (List.replicate (title.length + 2) '-') ++ "\n\n",
   "**ID:** " ++ pd.id.getD page_id ++ "\n",
   "**Importance:** " ++ pyCapitalize (pyStr importance) ++ "\n",
   "**Related Pages:** " ++ related_pages ++ "\n",
   "**Relevant Files:** " ++ file_paths ++ "\n\n",
   "## Content\n",
   cleaned_content ++ "\n\n",
   String.mk (List.replicate 30 '-') ++ "\n\n"]

/-- All write payloads for the whole dictionary, in iteration order. -/
def allWrites (data : List (String × PageData)) : List String :=
  match data with
  | [] => []
  | pp :: rest => writesOfPage pp.1 pp.2 ++ allWrites rest

/-- The exception raised by the modelled I/O layer. -/
inductive PyExc where
  | osError : PyExc
deriving DecidableEq, Repr

/-- Injected I/O failures: the `open` (or directory creation) can fail, or
the write call with a given index can fail. -/
structure IOModel where
  openFails : Bool
  failAtWrite : Option Nat
deriving DecidableEq, Repr

/-- Execute the write calls in order against the failure model; returns the
writes that reached the file and the exception, if one was raised. -/
def runWrites (io : IOModel) : List String → Nat → List String × Option PyExc
  | [], _ => ([], none)
  | w :: ws, i =>
    if io.failAtWrite = some i then ([], some .osError)
    else
      match runWrites io ws (i + 1) with
      | (done, e) => (w :: done, e)

/-- The body of the `try` block: open the destination, then write every page
section (source lines 129-155). -/
def runBody (data : List (String × PageData)) (io : IOModel) :
    List String × Option PyExc :=
  if io.openFails then ([], some .osError)
  else runWrites io (allWrites data) 0

/-- Observable outcome of a `generate_llms_txt` call: the exception that
escaped to the caller (if any), the writes that reached the file, whether the
success log line ran, and whether the stream was released (the `with` block
closes it on every path). -/
structure GenResult where
  raised : Option PyExc
  fileWrites : List String
  loggedSuccess : Bool
  streamClosed : Bool
deriving DecidableEq, Repr

/-- `generate_llms_txt` (source lines 115-157): the whole body runs inside
`try`/`except Exception`, which logs the error and returns normally; the
success log line runs only after the `with` block has written everything and
closed the stream. -/
def generate_llms_txt (data : List (String × PageData)) (io : IOModel) :
    GenResult :=
  match runBody data io with
  | (ws, none) => ⟨none, ws, true, true⟩
  | (ws, some _) => ⟨none, ws, false, true⟩

/-! ## Claim C1 -/

set_option maxRecDepth 4000

/-- The section 8 sample: the one-line `wiki_structure` document wrapped in a
fenced code block. -/
def sampleFencedInput : String := "```\n<wiki_structure><title>Test Wiki</title><description>This is a test wiki.</description><pages><page id=\"p1\"><title>Page 1</title><description>Content for page 1.</description><importance>high</importance><file_path>file1.txt</file_path></page></pages></wiki_structure>\n```"

/-- The extracted `wiki_structure` block of the sample. -/
def sampleFragment : String := "<wiki_structure><title>Test Wiki</title><description>This is a test wiki.</description><pages><page id=\"p1\"><title>Page 1</title><description>Content for page 1.</description><importance>high</importance><file_path>file1.txt</file_path></page></pages></wiki_structure>"

/-- The sample after fence stripping (keeps the newline that preceded the
closing fence). -/
def sampleStripped : String := "<wiki_structure><title>Test Wiki</title><description>This is a test wiki.</description><pages><page id=\"p1\"><title>Page 1</title><description>Content for page 1.</description><importance>high</importance><file_path>file1.txt</file_path></page></pages></wiki_structure>\n"

/-- The sample fence-stripped text after the start marker. -/
def sampleAfterOpen : String := "<title>Test Wiki</title><description>This is a test wiki.</description><pages><page id=\"p1\"><title>Page 1</title><description>Content for page 1.</description><importance>high</importance><file_path>file1.txt</file_path></page></pages></wiki_structure>\n"

/-- The sample region between the markers. -/
def sampleMid : String := "<title>Test Wiki</title><description>This is a test wiki.</description><pages><page id=\"p1\"><title>Page 1</title><description>Content for page 1.</description><importance>high</importance><file_path>file1.txt</file_path></page></pages>"

/-- C1: on the fenced sample input of section 8, `parse ∘ extract` recovers
title `"Test Wiki"`, description `"This is a test wiki."`, and exactly one
page record with id `"p1"`, title `"Page 1"`, description
`"Content for page 1."`, importance `"high"`, file paths `["file1.txt"]` and
no related pages. -/
theorem c1_parse_extract_sample :
    (extract_wiki_structure_xml sampleFencedInput.data).bind parse_wiki_structure =
      .ok ("Test Wiki", "This is a test wiki.",
        [{ id := "p1", title := "Page 1", description := "Content for page 1.",
           importance := "high", file_paths := ["file1.txt"], related_pages := [] }]) := by
  have h0 : pyStripL sampleFencedInput.data = sampleFencedInput.data := eq_of_beq (by decide)
  have hstrip : stripFences sampleFencedInput.data = sampleStripped.data := eq_of_beq (by decide)
  have hopen : splitOnSub openTag sampleStripped.data = some ([], sampleAfterOpen.data) := by
    rw [splitOnSub_eq_aux]
    exact eq_of_beq (by decide)
  have hclose : splitOnSub closeTag sampleAfterOpen.data = some (sampleMid.data, ['\n']) := by
    rw [splitOnSub_eq_aux]
    exact eq_of_beq (by decide)
  have hctrl : removeCtrl (openTag ++ sampleMid.data ++ closeTag) = sampleFragment.data :=
    eq_of_beq (by decide)
  have hex : extract_wiki_structure_xml sampleFencedInput.data = .ok sampleFragment.data := by
    rw [extract_wiki_structure_xml,
      if_neg (fun h => by rw [h0] at h; exact absurd h (by decide))]
    simp only [hstrip, hopen, hclose]
    rw [hctrl]
  have hparse : parse_wiki_structure sampleFragment.data =
      .ok ("Test Wiki", "This is a test wiki.",
        [{ id := "p1", title := "Page 1", description := "Content for page 1.",
           importance := "high", file_paths := ["file1.txt"], related_pages := [] }]) := by
    decide
  rw [hex]
  exact hparse

/-! ## Claim C4 -/

/-- A document whose page has an `importance` child that is present but
empty. -/
def c4EmptyImportanceDoc : String := "<wiki_structure><pages><page id=\"p\"><importance></importance></page></pages></wiki_structure>"

/-- C4 counterexample: when the `importance` child element is present but
empty, the parser records the empty string, not `"medium"` — refuting the
claim that an empty importance element also defaults to `"medium"`. -/
theorem c4_empty_importance_counterexample :
    parse_wiki_structure c4EmptyImportanceDoc.data =
      .ok ("", "", [{ id := "p", title := "", description := "", importance := "",
                      file_paths := [], related_pages := [] }]) ∧
    ("" : String) ≠ "medium" :=
  ⟨by decide, by decide⟩

/-- C4 (amended): a page's importance defaults to `"medium"` only when the
`importance` child element is absent; when the element is present with empty
or missing text, the importance is the empty string. -/
theorem c4_importance_default (el : XTree) :
    (findChild "importance" el = none → (parsePage el).importance = "medium") ∧
    (∀ e, findChild "importance" el = some e → (e.text = none ∨ e.text = some "") →
      (parsePage el).importance = "") := by
  constructor
  · intro h
    simp [parsePage, findtextD, h]
  · intro e h ht
    rcases ht with ht | ht <;> simp [parsePage, findtextD, h, ht]

/-- Witness for the amended C4 theorem at concrete page elements. -/
theorem c4_importance_default_witness :
    (parsePage (.node "page" [] none [])).importance = "medium" ∧
    (parsePage (.node "page" [] none [.node "importance" [] none []])).importance = "" :=
  ⟨(c4_importance_default _).1 rfl,
   (c4_importance_default _).2 _ rfl (Or.inl rfl)⟩

/-! ## Claims C9 and C10 -/

/-- C9: the related-pages and relevant-files metadata lines carry the literal
`"None"` when the field is absent, an empty list, or not a list at all, and
the comma-joined entries when the field is a non-empty list. -/
theorem c9_list_fields_none_or_joined (pid : String) (pd : PageData) :
    (pd.relatedPages = none →
      (writesOfPage pid pd)[4]? = some "**Related Pages:** None\n") ∧
    (pd.relatedPages = some (.list []) →
      (writesOfPage pid pd)[4]? = some "**Related Pages:** None\n") ∧
    (∀ v, pd.relatedPages = some v → (∀ l, v ≠ .list l) →
      (writesOfPage pid pd)[4]? = some "**Related Pages:** None\n") ∧
    (∀ x xs, pd.relatedPages = some (.list (x :: xs)) →
      (writesOfPage pid pd)[4]? =
        some ("**Related Pages:** " ++ String.intercalate ", " (x :: xs) ++ "\n")) ∧
    (pd.filePaths = none →
      (writesOfPage pid pd)[5]? = some "**Relevant Files:** None\n\n") ∧
    (pd.filePaths = some (.list []) →
      (writesOfPage pid pd)[5]? = some "**Relevant Files:** None\n\n") ∧
    (∀ v, pd.filePaths = some v → (∀ l, v ≠ .list l) →
      (writesOfPage pid pd)[5]? = some "**Relevant Files:** None\n\n") ∧
    (∀ x xs, pd.filePaths = some (.list (x :: xs)) →
      (writesOfPage pid pd)[5]? =
        some ("**Relevant Files:** " ++ String.intercalate ", " (x :: xs) ++ "\n\n")) := by
  refine ⟨fun h => ?_, fun h => ?_, fun v h hl => ?_, fun x xs h => ?_,
          fun h => ?_, fun h => ?_, fun v h hl => ?_, fun x xs h => ?_⟩
  · simp [writesOfPage, resolveListField, h]
  · simp [writesOfPage, resolveListField, h]
  · cases v with
    | list l =>
      cases l with
      | nil => simp [writesOfPage, resolveListField, h]
      | cons a as => exact absurd rfl (hl (a :: as))
    | str s => simp [writesOfPage, resolveListField, h]
    | int i => simp [writesOfPage, resolveListField, h]
  · simp [writesOfPage, resolveListField, h]
  · simp [writesOfPage, resolveListField, h]
  · simp [writesOfPage, resolveListField, h]
  · cases v with
    | list l =>
      cases l with
      | nil => simp [writesOfPage, resolveListField, h]
      | cons a as => exact absurd rfl (hl (a :: as))
    | str s => simp [writesOfPage, resolveListField, h]
    | int i => simp [writesOfPage, resolveListField, h]
  · simp [writesOfPage, resolveListField, h]

/-- Witness for C9 at concrete page entries. -/
theorem c9_list_fields_witness :
    (writesOfPage "p" {})[4]? = some "**Related Pages:** None\n" ∧
    (writesOfPage "p" { filePaths := some (.list ["a.txt", "b.txt"]) })[5]? =
      some ("**Relevant Files:** " ++ String.intercalate ", " ["a.txt", "b.txt"] ++ "\n\n") :=
  ⟨(c9_list_fields_none_or_joined "p" {}).1 rfl,
   (c9_list_fields_none_or_joined "p"
      { filePaths := some (.list ["a.txt", "b.txt"]) }).2.2.2.2.2.2.2 "a.txt" ["b.txt"] rfl⟩

/-- C10: the importance metadata line is always the resolved importance value
passed through `str(...).capitalize()` (first character uppercased, the rest
lowercased): `"high"` is written `"High"`, `"HIGH"` is written `"High"`, and
a missing importance field is written as `"N/a"` (the capitalized `"N/A"`
default). -/
theorem c10_importance_capitalized (pid : String) (pd : PageData) :
    (∀ v, pd.importance = some v →
      (writesOfPage pid pd)[3]? =
        some ("**Importance:** " ++ pyCapitalize (pyStr v) ++ "\n")) ∧
    (pd.importance = none →
      (writesOfPage pid pd)[3]? = some "**Importance:** N/a\n") ∧
    pyCapitalize "high" = "High" ∧ pyCapitalize "HIGH" = "High" ∧
    pyCapitalize "N/A" = "N/a" := by
  refine ⟨fun v h => ?_, fun h => ?_, by decide, by decide, by decide⟩
  · simp [writesOfPage, h]
  · simp [writesOfPage, h]
    decide

/-- Witness for C10 at concrete page entries. -/
theorem c10_importance_capitalized_witness :
    (writesOfPage "p" { importance := some (.str "HIGH") })[3]? =
      some ("**Importance:** " ++ pyCapitalize (pyStr (.str "HIGH")) ++ "\n") ∧
    (writesOfPage "p" {})[3]? = some "**Importance:** N/a\n" :=
  ⟨(c10_importance_capitalized "p" _).1 _ rfl,
   (c10_importance_capitalized "p" {}).2.1 rfl⟩

/-! ## Claim C3 -/

/-- If no write failure is injected, the write loop emits every payload. -/
theorem runWrites_no_fail (io : IOModel) (hf : io.failAtWrite = none) :
    ∀ (ws : List String) (i : Nat), runWrites io ws i = (ws, none) := by
  intro ws
  induction ws with
  | nil => intro i; rfl
  | cons w ws ih =>
    intro i
    rw [runWrites, if_neg (by rw [hf]; exact nofun), ih (i + 1)]

/-- If the write loop finished without an exception, everything was
written. -/
theorem runWrites_none_eq (io : IOModel) :
    ∀ (ws : List String) (i : Nat) (done : List String),
      runWrites io ws i = (done, none) → done = ws := by
  intro ws
  induction ws with
  | nil =>
    intro i done h
    rw [runWrites] at h
    injection h with h1 _
    exact h1.symm
  | cons w ws ih =>
    intro i done h
    rw [runWrites] at h
    by_cases hf : io.failAtWrite = some i
    · rw [if_pos hf] at h
      injection h with _ h2
      cases h2
    · rw [if_neg hf] at h
      cases hrec : runWrites io ws (i + 1) with
      | mk done' e =>
        rw [hrec] at h
        injection h with h1 h2
        subst h2
        rw [← h1, ih (i + 1) done' hrec]

/-- C3 counterexample: with a failing destination, `generate_llms_txt`
catches the error and returns normally — it does not fail with a
`WriteError`-style exception. -/
theorem c3_writer_swallows_counterexample :
    (generate_llms_txt [("p", {})] ⟨true, none⟩).raised = none ∧
    (generate_llms_txt [("p", {})] ⟨true, none⟩).loggedSuccess = false :=
  ⟨rfl, rfl⟩

/-- C3 (amended): the report writer never propagates an exception to its
caller — an I/O failure is caught and logged as an error instead of being
raised — the stream is released on every path, success is logged only when
every page section was fully written, and with no I/O failure it logs success
after writing everything; in particular it never raises for malformed page
entries. -/
theorem c3_writer_never_raises (data : List (String × PageData)) (io : IOModel) :
    (generate_llms_txt data io).raised = none ∧
    (generate_llms_txt data io).streamClosed = true ∧
    ((generate_llms_txt data io).loggedSuccess = true →
      (generate_llms_txt data io).fileWrites = allWrites data) ∧
    (io.openFails = false → io.failAtWrite = none →
      (generate_llms_txt data io).loggedSuccess = true ∧
      (generate_llms_txt data io).fileWrites = allWrites data) := by
  refine ⟨?_, ?_, ?_, ?_⟩
  · rw [generate_llms_txt]
    cases runBody data io with
    | mk ws e => cases e <;> rfl
  · rw [generate_llms_txt]
    cases runBody data io with
    | mk ws e => cases e <;> rfl
  · intro h
    rw [generate_llms_txt] at h ⊢
    cases hrb : runBody data io with
    | mk ws e =>
      cases e with
      | none =>
        show ws = allWrites data
        rw [runBody] at hrb
        by_cases ho : io.openFails = true
        · rw [if_pos ho] at hrb
          injection hrb with _ h2
          cases h2
        · rw [if_neg ho] at hrb
          exact runWrites_none_eq io (allWrites data) 0 ws hrb
      | some ex =>
        rw [hrb] at h
        exact Bool.noConfusion h
  · intro ho hf
    rw [generate_llms_txt, runBody, if_neg (by rw [ho]; exact nofun),
      runWrites_no_fail io hf (allWrites data) 0]
    exact ⟨rfl, rfl⟩

/-- Witness for the amended C3 theorem at a concrete page set and a
failure-free destination. -/
theorem c3_writer_never_raises_witness :
    (generate_llms_txt [("p", {})] ⟨false, none⟩).loggedSuccess = true ∧
    (generate_llms_txt [("p", {})] ⟨false, none⟩).fileWrites = allWrites [("p", {})] :=
  (c3_writer_never_raises [("p", {})] ⟨false, none⟩).2.2.2 rfl rfl

/-! ## Claims C6 and C7: extractor lemmas -/

theorem isPySpace_lt_false : isPySpace '<' = false := by decide

theorem isPySpace_gt_false : isPySpace '>' = false := by decide

/-- The start marker without its leading `<`. -/
def openTail : List Char := "wiki_structure>".data

/-- The end marker without its final `>`. -/
def closeInit : List Char := "</wiki_structure".data

theorem openTag_split : openTag = '<' :: openTail := by decide

theorem closeTag_split : closeTag = closeInit ++ ['>'] := by decide

/-- Characterization of the emptiness test: `str.strip()` is empty exactly
when every character is whitespace. -/
theorem pyStripL_eq_nil_iff (s : List Char) :
    pyStripL s = [] ↔ ∀ c ∈ s, isPySpace c := by
  rw [pyStripL, List.reverse_eq_nil_iff, List.dropWhile_eq_nil_iff]
  constructor
  · intro h c hc
    by_cases hsp : isPySpace c
    · exact hsp
    · have h1 : c ∈ s.dropWhile isPySpace ∨ c ∈ s.takeWhile isPySpace := by
        have := List.takeWhile_append_dropWhile (p := isPySpace) (l := s)
        rw [← this] at hc
        rcases List.mem_append.mp hc with h' | h'
        · exact Or.inr h'
        · exact Or.inl h'
      rcases h1 with h1 | h1
      · exact h c (List.mem_reverse.mpr h1)
      · exact List.mem_takeWhile_imp h1
  · intro h c hc
    have hc' : c ∈ s.dropWhile isPySpace := List.mem_reverse.mp hc
    have : c ∈ s := by
      have hsub : List.Sublist (s.dropWhile isPySpace) s := by
        conv_rhs => rw [← List.takeWhile_append_dropWhile (p := isPySpace) (l := s)]
        exact List.sublist_append_right _ _
      exact hsub.subset hc'
    exact h c this

/-- The region removed from the front by the leading-fence substitution
contains no `<`. -/
theorem stripLeadingFence_decomp (s : List Char) :
    ∃ p, s = p ++ stripLeadingFence s ∧ '<' ∉ p := by
  rw [stripLeadingFence]
  by_cases h3 : startsWithL ticks3 s = true
  · rw [if_pos h3]
    obtain ⟨t, ht⟩ := startsWithL_eq_true h3
    have hdrop : s.drop 3 = t := by rw [ht]; rfl
    rw [hdrop]
    by_cases hx : ciStartsXml t = true
    · rw [if_pos hx]
      cases t with
      | nil => exact Bool.noConfusion hx
      | cons a t1 =>
        cases t1 with
        | nil => exact Bool.noConfusion hx
        | cons b t2 =>
          cases t2 with
          | nil => exact Bool.noConfusion hx
          | cons c t3 =>
            simp only [ciStartsXml, Bool.and_eq_true, decide_eq_true_eq] at hx
            obtain ⟨⟨hxa, hxb⟩, hxc⟩ := hx
            refine ⟨ticks3 ++ ([a, b, c] ++ t3.takeWhile isPySpace), ?_, ?_⟩
            · conv_lhs =>
                rw [ht, show t3 = t3.takeWhile isPySpace ++ t3.dropWhile isPySpace from
                  (List.takeWhile_append_dropWhile (p := isPySpace) (l := t3)).symm]
              simp [List.append_assoc]
            · intro hmem
              rcases List.mem_append.mp hmem with h | h
              · revert h; decide
              · rcases List.mem_append.mp h with h | h
                · simp only [List.mem_cons, List.not_mem_nil, or_false] at h
                  rcases h with h | h | h
                  · rw [← h] at hxa
                    exact absurd hxa (by decide)
                  · rw [← h] at hxb
                    exact absurd hxb (by decide)
                  · rw [← h] at hxc
                    exact absurd hxc (by decide)
                · have := List.mem_takeWhile_imp h
                  rw [isPySpace_lt_false] at this
                  cases this
    · rw [if_neg hx]
      refine ⟨ticks3 ++ t.takeWhile isPySpace, ?_, ?_⟩
      · conv_lhs =>
          rw [ht, show t = t.takeWhile isPySpace ++ t.dropWhile isPySpace from
            (List.takeWhile_append_dropWhile (p := isPySpace) (l := t)).symm]
        simp [List.append_assoc]
      · intro hmem
        rcases List.mem_append.mp hmem with h | h
        · revert h; decide
        · have := List.mem_takeWhile_imp h
          rw [isPySpace_lt_false] at this
          cases this
  · rw [if_neg h3]
    exact ⟨[], rfl, by simp⟩

/-- The region removed from the back by the trailing-fence substitution
contains neither `<` nor `>`. -/
theorem stripTrailingFence_decomp (s : List Char) :
    ∃ q, s = stripTrailingFence s ++ q ∧ '<' ∉ q ∧ '>' ∉ q := by
  rw [stripTrailingFence]
  by_cases h3 : startsWithL ticks3 (s.reverse.dropWhile isPySpace) = true
  · rw [if_pos h3]
    obtain ⟨t, ht⟩ := startsWithL_eq_true h3
    have hdrop : (s.reverse.dropWhile isPySpace).drop 3 = t := by rw [ht]; rfl
    refine ⟨ticks3 ++ (s.reverse.takeWhile isPySpace).reverse, ?_, ?_, ?_⟩
    · rw [hdrop]
      have hs : s.reverse.takeWhile isPySpace ++ s.reverse.dropWhile isPySpace = s.reverse :=
        List.takeWhile_append_dropWhile (p := isPySpace) (l := s.reverse)
      have : s = (s.reverse.takeWhile isPySpace ++ s.reverse.dropWhile isPySpace).reverse := by
        rw [hs, List.reverse_reverse]
      conv_lhs => rw [this]
      rw [List.reverse_append (s.reverse.takeWhile isPySpace), ht]
      show (ticks3 ++ t).reverse ++ _ = _
      rw [List.reverse_append ticks3]
      have : ticks3.reverse = ticks3 := by decide
      rw [this]
      simp [List.append_assoc]
    · intro hmem
      rcases List.mem_append.mp hmem with h | h
      · revert h; decide
      · have := List.mem_takeWhile_imp (List.mem_reverse.mp h)
        rw [isPySpace_lt_false] at this
        cases this
    · intro hmem
      rcases List.mem_append.mp hmem with h | h
      · revert h; decide
      · have := List.mem_takeWhile_imp (List.mem_reverse.mp h)
        rw [isPySpace_gt_false] at this
        cases this
  · rw [if_neg h3]
    exact ⟨[], by simp, by simp, by simp⟩

/-- A distinguished character occurrence survives the removal of a prefix
that does not contain it. -/
theorem prefix_shift {p s₁ a t : List Char} {x : Char}
    (h : p ++ s₁ = a ++ x :: t) (hx : x ∉ p) :
    ∃ a', s₁ = a' ++ x :: t := by
  induction p generalizing a with
  | nil => exact ⟨a, h⟩
  | cons c p' ih =>
    cases a with
    | nil =>
      rw [List.nil_append] at h
      injection h with h1 _
      exact absurd (h1 ▸ List.mem_cons_self c p') hx
    | cons d a' =>
      rw [List.cons_append] at h
      injection h with h1 h2
      exact ih h2 (fun hm => hx (List.mem_cons_of_mem c hm))

/-- A distinguished character occurrence survives the removal of a suffix
that does not contain it. -/
theorem suffix_shift {s₂ q A B : List Char} {x : Char}
    (h : s₂ ++ q = A ++ x :: B) (hx : x ∉ q) :
    ∃ B', s₂ = A ++ x :: B' := by
  induction A generalizing s₂ with
  | nil =>
    rw [List.nil_append] at h
    cases s₂ with
    | nil =>
      rw [List.nil_append] at h
      exact absurd (h ▸ List.mem_cons_self x B) hx
    | cons d s₂' =>
      rw [List.cons_append] at h
      injection h with h1 _
      exact ⟨s₂', by rw [h1]; rfl⟩
  | cons c A' ih =>
    cases s₂ with
    | nil =>
      rw [List.nil_append] at h
      have hxq : x ∈ q := by
        rw [h]
        exact List.mem_append_right (c :: A') (List.mem_cons_self x B)
      exact absurd hxq hx
    | cons d s₂' =>
      rw [List.cons_append, List.cons_append] at h
      injection h with h1 h2
      obtain ⟨B', hB⟩ := ih h2
      exact ⟨B', by rw [h1, hB]; rfl⟩

/-- If the text handed to the marker search decomposes around the first start
marker, and it also contains a complete delimited fragment, then the end
marker occurs after that first start marker. -/
theorem close_after_first_open {s₂ a₃ rest A m B : List Char}
    (heq : s₂ = a₃ ++ (openTag ++ rest))
    (h2 : s₂ = A ++ (openTag ++ (m ++ (closeTag ++ B))))
    (hmin : a₃.length ≤ A.length) :
    ∃ pre post, rest = pre ++ (closeTag ++ post) := by
  rw [heq] at h2
  rcases List.append_eq_append_iff.mp h2 with ⟨w, hA, hw⟩ | ⟨w, ha₃, hw⟩
  · rcases List.append_eq_append_iff.mp hw with ⟨u, hwu, hrest⟩ | ⟨u, hou, hw2⟩
    · exact ⟨u ++ (openTag ++ m), B, by rw [hrest]; simp [List.append_assoc]⟩
    · have hsfx1 : List.IsSuffix (closeTag ++ B) (u ++ rest) := by
        rw [← hw2]
        exact ⟨openTag ++ m, by simp [List.append_assoc]⟩
      have hsfx2 : List.IsSuffix rest (u ++ rest) := ⟨u, rfl⟩
      have hlen : (closeTag ++ B).length ≤ rest.length := by
        have hlu : u.length ≤ openTag.length := by
          have := congrArg List.length hou
          simp at this
          omega
        have := congrArg List.length hw2
        simp at this
        simp
        omega
      obtain ⟨pre, hpre⟩ := List.suffix_of_suffix_length_le hsfx1 hsfx2 hlen
      exact ⟨pre, B, by rw [← hpre]⟩
  · have hw0 : w = [] := by
      have := congrArg List.length ha₃
      simp at this
      have : w.length = 0 := by omega
      exact List.eq_nil_of_length_eq_zero this
    subst hw0
    rw [List.append_nil] at ha₃
    subst ha₃
    have := List.append_cancel_left hw
    exact ⟨m, B, this.symm⟩

/-- If the fence-stripped text contains a complete delimited fragment, the
extractor succeeds. -/
theorem extract_ok_of_fragment {s A m B : List Char}
    (h2 : stripFences s = A ++ (openTag ++ (m ++ (closeTag ++ B))))
    (hne : pyStripL s ≠ []) :
    ∃ t, extract_wiki_structure_xml s = .ok t := by
  rw [extract_wiki_structure_xml, if_neg hne]
  have h3 : (splitOnSub openTag (stripFences s)).isSome :=
    splitOnSub_isSome A (m ++ (closeTag ++ B)) (by rw [h2]; simp [List.append_assoc])
  cases ho : splitOnSub openTag (stripFences s) with
  | none => rw [ho] at h3; cases h3
  | some ab =>
    obtain ⟨a₃, rest⟩ := ab
    have heq := splitOnSub_eq_some ho
    have hmin := splitOnSub_minimal ho A (m ++ (closeTag ++ B))
      (by rw [h2]; simp [List.append_assoc])
    obtain ⟨pre, post, hrest⟩ :=
      close_after_first_open (by rw [heq, List.append_assoc]) h2 hmin
    have h4 : (splitOnSub closeTag rest).isSome :=
      splitOnSub_isSome pre post (by rw [hrest]; simp [List.append_assoc])
    cases hc : splitOnSub closeTag rest with
    | none => rw [hc] at h4; cases h4
    | some ab2 =>
      obtain ⟨mid, after⟩ := ab2
      simp only [ho, hc]
      exact ⟨_, rfl⟩

/-- On non-blank input the extractor either reports the missing structure or
returns a fragment. -/
theorem extract_result_shape (s : List Char) (hp : pyStripL s ≠ []) :
    extract_wiki_structure_xml s = .error .noStructure ∨
    ∃ t, extract_wiki_structure_xml s = .ok t := by
  rw [extract_wiki_structure_xml, if_neg hp]
  cases ho : splitOnSub openTag (stripFences s) with
  | none => exact Or.inl rfl
  | some ab =>
    obtain ⟨a₃, rest⟩ := ab
    cases hc : splitOnSub closeTag rest with
    | none =>
      refine Or.inl ?_
      simp only [hc]
    | some ab2 =>
      obtain ⟨mid, after⟩ := ab2
      refine Or.inr ⟨removeCtrl (openTag ++ mid ++ closeTag), ?_⟩
      simp only [hc]

/-- C6: the extractor fails with the empty-input error exactly when the raw
input is empty or whitespace-only; `extract("no structure here")` fails with
the no-structure error; and whenever the raw input contains a complete
`<wiki_structure>…</wiki_structure>` fragment the extractor returns a
fragment rather than an error. -/
theorem c6_extractor_errors :
    (∀ s : List Char,
      extract_wiki_structure_xml s = .error .emptyInput ↔ ∀ c ∈ s, isPySpace c) ∧
    extract_wiki_structure_xml "no structure here".data = .error .noStructure ∧
    (∀ s a m b : List Char, s = a ++ (openTag ++ (m ++ (closeTag ++ b))) →
      ∃ t, extract_wiki_structure_xml s = .ok t) := by
  refine ⟨fun s => ⟨fun h => ?_, fun h => ?_⟩, by decide, fun s a m b hs => ?_⟩
  · by_cases hp : pyStripL s = []
    · exact (pyStripL_eq_nil_iff s).mp hp
    · exfalso
      rcases extract_result_shape s hp with h' | ⟨t, h'⟩
      · rw [h'] at h
        injection h with h1
        cases h1
      · rw [h'] at h
        exact Except.noConfusion h
  · rw [extract_wiki_structure_xml, if_pos ((pyStripL_eq_nil_iff s).mpr h)]
  · have hne : pyStripL s ≠ [] := by
      rw [ne_eq, pyStripL_eq_nil_iff]
      intro hall
      have hlt : '<' ∈ s := by
        rw [hs]
        exact List.mem_append_right a
          (List.mem_append_left _ (List.mem_cons_self '<' _))
      have := hall '<' hlt
      rw [isPySpace_lt_false] at this
      cases this
    obtain ⟨p, hps, hp⟩ := stripLeadingFence_decomp s
    have hpre : p ++ stripLeadingFence s =
        a ++ ('<' :: (openTail ++ (m ++ (closeTag ++ b)))) := by
      rw [← hps, hs, openTag_split]
      simp [List.cons_append]
    obtain ⟨a', ha'⟩ := prefix_shift hpre hp
    obtain ⟨q, hqs, hq1, hq2⟩ := stripTrailingFence_decomp (stripLeadingFence s)
    have hsuf : stripTrailingFence (stripLeadingFence s) ++ q =
        (a' ++ (openTag ++ (m ++ closeInit))) ++ '>' :: b := by
      rw [← hqs, ha', openTag_split, closeTag_split]
      simp [List.cons_append, List.append_assoc]
    obtain ⟨b', hb'⟩ := suffix_shift hsuf hq2
    apply extract_ok_of_fragment (A := a') (m := m) (B := b') _ hne
    rw [stripFences, hb', closeTag_split]
    simp [List.cons_append, List.append_assoc]

/-- Witness for C6 at concrete inputs: whitespace-only input gives the
empty-input error, and a markers-only (empty-body) input yields a fragment,
not an error. -/
theorem c6_extractor_errors_witness :
    extract_wiki_structure_xml "   ".data = .error .emptyInput ∧
    ∃ t, extract_wiki_structure_xml "<wiki_structure></wiki_structure>".data = .ok t :=
  ⟨(c6_extractor_errors.1 "   ".data).mpr (by decide),
   c6_extractor_errors.2.2 "<wiki_structure></wiki_structure>".data [] [] [] (by decide)⟩

/-! ## Claim C7 -/

theorem removeCtrl_openTag : removeCtrl openTag = openTag := by decide

theorem removeCtrl_closeTag : removeCtrl closeTag = closeTag := by decide

/-- The returned fragment `<…>` is already stripped: it starts with `<` and
ends with `>`, neither of which is whitespace. -/
theorem pyStripL_tag_delimited (x : List Char) :
    pyStripL (openTag ++ x ++ closeTag) = openTag ++ x ++ closeTag := by
  have h1 : (openTag ++ x ++ closeTag).dropWhile isPySpace = openTag ++ x ++ closeTag := by
    rw [openTag_split]
    rw [List.cons_append, List.cons_append, List.dropWhile_cons]
    simp [isPySpace_lt_false]
  have h2 : (openTag ++ x ++ closeTag).reverse.dropWhile isPySpace =
      (openTag ++ x ++ closeTag).reverse := by
    rw [closeTag_split]
    rw [show openTag ++ x ++ (closeInit ++ ['>']) = (openTag ++ x ++ closeInit) ++ ['>'] by
      simp [List.append_assoc]]
    rw [List.reverse_append (openTag ++ x ++ closeInit) ['>']]
    rw [show (['>'] : List Char).reverse = ['>'] from rfl, List.singleton_append,
      List.dropWhile_cons]
    simp [isPySpace_gt_false]
  rw [pyStripL, h1, h2, List.reverse_reverse]

/-- C7: for every raw input containing a well-formed delimited fragment, the
extractor returns exactly the first delimited region of the fence-stripped
text — start marker through the lazily-matched (nearest) end marker,
inclusive — with control characters removed; the trimmed result starts with
the start marker and ends with the end marker.  (The markers-only, empty-body
case is an instance, exercised by the witness.) -/
theorem c7_extract_is_first_region (s a₀ m₀ b₀ : List Char)
    (hs : s = a₀ ++ (openTag ++ (m₀ ++ (closeTag ++ b₀)))) :
    ∃ a m b, stripFences s = a ++ (openTag ++ (m ++ (closeTag ++ b))) ∧
      extract_wiki_structure_xml s = .ok (removeCtrl (openTag ++ m ++ closeTag)) ∧
      (∀ a' r', stripFences s = a' ++ (openTag ++ r') → a.length ≤ a'.length) ∧
      (∀ m' b', stripFences s = a ++ (openTag ++ (m' ++ (closeTag ++ b'))) →
        m.length ≤ m'.length) ∧
      removeCtrl (openTag ++ m ++ closeTag) = openTag ++ removeCtrl m ++ closeTag ∧
      List.IsPrefix openTag (pyStripL (removeCtrl (openTag ++ m ++ closeTag))) ∧
      List.IsSuffix closeTag (pyStripL (removeCtrl (openTag ++ m ++ closeTag))) := by
  have hne : pyStripL s ≠ [] := by
    rw [ne_eq, pyStripL_eq_nil_iff]
    intro hall
    have hlt : '<' ∈ s := by
      rw [hs]
      exact List.mem_append_right a₀
        (List.mem_append_left _ (openTag_split ▸ List.mem_cons_self '<' _))
    have := hall '<' hlt
    rw [isPySpace_lt_false] at this
    cases this
  obtain ⟨p, hps, hp⟩ := stripLeadingFence_decomp s
  have hpre : p ++ stripLeadingFence s =
      a₀ ++ ('<' :: (openTail ++ (m₀ ++ (closeTag ++ b₀)))) := by
    rw [← hps, hs, openTag_split]
    simp [List.cons_append]
  obtain ⟨a', ha'⟩ := prefix_shift hpre hp
  obtain ⟨q, hqs, hq1, hq2⟩ := stripTrailingFence_decomp (stripLeadingFence s)
  have hsuf : stripTrailingFence (stripLeadingFence s) ++ q =
      (a' ++ (openTag ++ (m₀ ++ closeInit))) ++ '>' :: b₀ := by
    rw [← hqs, ha', openTag_split, closeTag_split]
    simp [List.cons_append, List.append_assoc]
  obtain ⟨b', hb'⟩ := suffix_shift hsuf hq2
  have h2 : stripFences s = a' ++ (openTag ++ (m₀ ++ (closeTag ++ b'))) := by
    rw [stripFences, hb', openTag_split, closeTag_split]
    simp [List.cons_append, List.append_assoc]
  have h3 : (splitOnSub openTag (stripFences s)).isSome :=
    splitOnSub_isSome a' (m₀ ++ (closeTag ++ b')) (by rw [h2]; simp [List.append_assoc])
  cases ho : splitOnSub openTag (stripFences s) with
  | none => rw [ho] at h3; cases h3
  | some ab =>
    obtain ⟨a₃, rest⟩ := ab
    have heq := splitOnSub_eq_some ho
    have hmin := splitOnSub_minimal ho
    obtain ⟨pre, post, hrest⟩ :=
      close_after_first_open (by rw [heq, List.append_assoc]) h2
        (hmin a' (m₀ ++ (closeTag ++ b')) (by rw [h2]; simp [List.append_assoc]))
    have h4 : (splitOnSub closeTag rest).isSome :=
      splitOnSub_isSome pre post (by rw [hrest]; simp [List.append_assoc])
    cases hc : splitOnSub closeTag rest with
    | none => rw [hc] at h4; cases h4
    | some ab2 =>
      obtain ⟨mid, after⟩ := ab2
      have hceq := splitOnSub_eq_some hc
      have hcmin := splitOnSub_minimal hc
      have hdecomp : stripFences s = a₃ ++ (openTag ++ (mid ++ (closeTag ++ after))) := by
        rw [heq, hceq]
        simp [List.append_assoc]
      have hval : extract_wiki_structure_xml s =
          .ok (removeCtrl (openTag ++ mid ++ closeTag)) := by
        rw [extract_wiki_structure_xml, if_neg hne]
        simp only [ho, hc]
      have hctrl : removeCtrl (openTag ++ mid ++ closeTag) =
          openTag ++ removeCtrl mid ++ closeTag := by
        rw [removeCtrl, removeCtrl, List.filter_append, List.filter_append]
        rw [show openTag.filter (fun c => !isStrippedCtrl c) = openTag from by decide,
          show closeTag.filter (fun c => !isStrippedCtrl c) = closeTag from by decide]
      refine ⟨a₃, mid, after, hdecomp, hval, ?_, ?_, hctrl, ?_, ?_⟩
      · intro a' r' hd
        exact hmin a' r' (by rw [hd]; simp [List.append_assoc])
      · intro m' b'' hd
        have hcancel : rest = m' ++ (closeTag ++ b'') := by
          have h5 : a₃ ++ (openTag ++ rest) = a₃ ++ (openTag ++ (m' ++ (closeTag ++ b''))) := by
            rw [← List.append_assoc, ← heq, hd]
          exact List.append_cancel_left (List.append_cancel_left h5)
        exact hcmin m' b'' (by rw [hcancel]; simp [List.append_assoc])
      · rw [hctrl, pyStripL_tag_delimited]
        exact ⟨removeCtrl mid ++ closeTag, by simp [List.append_assoc]⟩
      · rw [hctrl, pyStripL_tag_delimited]
        exact ⟨openTag ++ removeCtrl mid, by simp [List.append_assoc]⟩

/-- Witness for C7 at the markers-only input: the empty-body fragment is
returned unchanged, not treated as an error. -/
theorem c7_extract_is_first_region_witness :
    ∃ a m b,
      stripFences (openTag ++ (closeTag ++ [])) = a ++ (openTag ++ (m ++ (closeTag ++ b))) ∧
      extract_wiki_structure_xml (openTag ++ (closeTag ++ [])) =
        .ok (removeCtrl (openTag ++ m ++ closeTag)) ∧
      (∀ a' r', stripFences (openTag ++ (closeTag ++ [])) = a' ++ (openTag ++ r') →
        a.length ≤ a'.length) ∧
      (∀ m' b', stripFences (openTag ++ (closeTag ++ [])) =
          a ++ (openTag ++ (m' ++ (closeTag ++ b'))) → m.length ≤ m'.length) ∧
      removeCtrl (openTag ++ m ++ closeTag) = openTag ++ removeCtrl m ++ closeTag ∧
      List.IsPrefix openTag (pyStripL (removeCtrl (openTag ++ m ++ closeTag))) ∧
      List.IsSuffix closeTag (pyStripL (removeCtrl (openTag ++ m ++ closeTag))) :=
  c7_extract_is_first_region (openTag ++ (closeTag ++ [])) [] [] [] (by simp)

/-! ## Claim C8 -/

/-- Every whitespace character surviving the whitespace-collapse scan is a
plain space. -/
theorem collapseWsF_space_only :
    ∀ (n : Nat) (s : List Char), ∀ c ∈ collapseWsF n s, isPySpace c → c = ' ' := by
  intro n
  induction n with
  | zero => intro s c hc _; cases hc
  | succ n ih =>
    intro s d hd hdsp
    cases s with
    | nil => cases hd
    | cons c r =>
      rw [collapseWsF] at hd
      by_cases hsp : isPySpace c = true
      · rw [if_pos hsp] at hd
        rcases List.mem_cons.mp hd with h | h
        · exact h
        · exact ih (r.dropWhile isPySpace) d h hdsp
      · rw [if_neg hsp] at hd
        rcases List.mem_cons.mp hd with h | h
        · rw [h] at hdsp
          exact absurd hdsp hsp
        · exact ih r d h hdsp

/-- No newline survives the whitespace-collapse step. -/
theorem collapseWs_no_newline (s : List Char) : '\n' ∉ collapseWs s := by
  intro h
  have := collapseWsF_space_only s.length s '\n' h (by decide)
  cases this

/-- The blank-line re-collapse substitution is the identity on
newline-free text. -/
theorem subBlankF_id : ∀ (n : Nat) (s : List Char), '\n' ∉ s → subBlankF n s = s := by
  intro n
  induction n with
  | zero => intro s _; rfl
  | succ n ih =>
    intro s hs
    cases s with
    | nil => rfl
    | cons c r =>
      have hc : c ≠ '\n' := fun h => hs (h ▸ List.mem_cons_self c r)
      rw [subBlankF, if_neg hc, ih r (fun h => hs (List.mem_cons_of_mem c h))]

/-- The cleaning pipeline with the blank-line re-collapse substitution
removed (spec section 4.3 without step 8), keeping the final trim. -/
def cleanNoRecollapse (s : List Char) : List Char :=
  pyStripL (collapseWs (subMermaid (subTags (subLink (subImg
    (subSources (subDetails s)))))))

/-- C8: the re-collapse step is dead code — after the whitespace-collapse
step no newline remains, so the full pipeline is extensionally equal to the
pipeline with the re-collapse substitution removed. -/
theorem c8_recollapse_is_noop (s : List Char) :
    '\n' ∉ collapseWs (subMermaid (subTags (subLink (subImg
      (subSources (subDetails s)))))) ∧
    clean_and_format_content s = cleanNoRecollapse s := by
  refine ⟨collapseWs_no_newline _, ?_⟩
  rw [clean_and_format_content, cleanNoRecollapse, subBlank,
    subBlankF_id _ _ (collapseWs_no_newline _)]

/-- Witness for C8 at a concrete input containing blank lines. -/
theorem c8_recollapse_is_noop_witness :
    clean_and_format_content "a \n\n b".data = cleanNoRecollapse "a \n\n b".data :=
  (c8_recollapse_is_noop "a \n\n b".data).2

/-! ## Claim C5 -/

/-- Case analysis for a two-character sublist against a cons cell. -/
theorem lg_sublist_cons {c : Char} {t : List Char}
    (h : List.Sublist ['<', '>'] (c :: t)) :
    List.Sublist ['<', '>'] t ∨ (c = '<' ∧ List.Sublist ['>'] t) := by
  cases h with
  | cons x h' => exact Or.inl h'
  | cons₂ x h' => exact Or.inr ⟨rfl, h'⟩

/-- A failing singleton search means the character is absent. -/
theorem splitOnSub_gt_none {r : List Char} (h : splitOnSub ['>'] r = none) :
    '>' ∉ r := by
  intro hmem
  obtain ⟨u, v, huv⟩ := List.append_of_mem hmem
  have hsome := splitOnSub_isSome (s := r) u v (show r = u ++ ['>'] ++ v by rw [huv]; simp)
  rw [h] at hsome
  cases hsome

/-- After the tag-removal scan, no `<` is ever followed by a later `>`. -/
theorem subTagsF_no_tag :
    ∀ (n : Nat) (s : List Char), s.length ≤ n →
      ¬ List.Sublist ['<', '>'] (subTagsF n s) := by
  intro n
  induction n with
  | zero =>
    intro s hs h
    rw [List.eq_nil_of_length_eq_zero (Nat.le_zero.mp hs)] at h
    rw [show subTagsF 0 [] = [] from rfl] at h
    cases List.sublist_nil.mp h
  | succ n ih =>
    intro s hs h
    cases s with
    | nil =>
      rw [show subTagsF (n + 1) [] = [] from rfl] at h
      cases List.sublist_nil.mp h
    | cons c r =>
      have hrn : r.length ≤ n := by simpa using hs
      rw [subTagsF] at h
      by_cases hc : c = '<'
      · rw [if_pos hc] at h
        cases hsp : splitOnSub ['>'] r with
        | some ab =>
          obtain ⟨w, rest⟩ := ab
          rw [hsp] at h
          have hlen : rest.length ≤ n := by
            have := congrArg List.length (splitOnSub_eq_some hsp)
            simp at this
            omega
          exact ih rest hlen h
        | none =>
          rw [hsp] at h
          have hgt := splitOnSub_gt_none hsp
          rcases lg_sublist_cons h with h' | ⟨_, h'⟩
          · exact hgt (h'.subset (by decide))
          · exact hgt (List.singleton_sublist.mp h')
      · rw [if_neg hc] at h
        rcases lg_sublist_cons h with h' | ⟨hceq, _⟩
        · exact ih r hrn h'
        · exact hc hceq

/-- `dropWhile` keeps a suffix, hence a sublist. -/
theorem dropWhile_sublist' (p : Char → Bool) (l : List Char) :
    List.Sublist (l.dropWhile p) l := by
  conv_rhs => rw [← List.takeWhile_append_dropWhile (p := p) (l := l)]
  exact List.sublist_append_right _ _

/-- Membership transfer out of a `dropWhile`. -/
theorem mem_of_mem_dropWhile {a : Char} (p : Char → Bool) (l : List Char)
    (h : a ∈ l.dropWhile p) : a ∈ l :=
  (dropWhile_sublist' p l).subset h

/-- Characters of the whitespace-collapse output come from the input or are
spaces. -/
theorem collapseWsF_mem :
    ∀ (n : Nat) (s : List Char), ∀ c ∈ collapseWsF n s, c ∈ s ∨ c = ' ' := by
  intro n
  induction n with
  | zero => intro s c hc; cases hc
  | succ n ih =>
    intro s d hd
    cases s with
    | nil => cases hd
    | cons c r =>
      rw [collapseWsF] at hd
      by_cases hsp : isPySpace c = true
      · rw [if_pos hsp] at hd
        rcases List.mem_cons.mp hd with h | h
        · exact Or.inr h
        · rcases ih (r.dropWhile isPySpace) d h with h' | h'
          · exact Or.inl (List.mem_cons_of_mem c (mem_of_mem_dropWhile isPySpace r h'))
          · exact Or.inr h'
      · rw [if_neg hsp] at hd
        rcases List.mem_cons.mp hd with h | h
        · exact Or.inl (h ▸ List.mem_cons_self c r)
        · rcases ih r d h with h' | h'
          · exact Or.inl (List.mem_cons_of_mem c h')
          · exact Or.inr h'

/-- A `<`-then-`>` pattern in the whitespace-collapse output comes from one
in the input. -/
theorem collapseWsF_lg_transfer :
    ∀ (n : Nat) (s : List Char),
      List.Sublist ['<', '>'] (collapseWsF n s) → List.Sublist ['<', '>'] s := by
  intro n
  induction n with
  | zero =>
    intro s h
    cases List.sublist_nil.mp h
  | succ n ih =>
    intro s h
    cases s with
    | nil =>
      rw [show collapseWsF (n + 1) [] = [] from rfl] at h
      cases List.sublist_nil.mp h
    | cons c r =>
      rw [collapseWsF] at h
      by_cases hsp : isPySpace c = true
      · rw [if_pos hsp] at h
        rcases lg_sublist_cons h with h' | ⟨hceq, _⟩
        · exact ((ih _ h').trans (dropWhile_sublist' isPySpace r)).cons c
        · cases hceq
      · rw [if_neg hsp] at h
        rcases lg_sublist_cons h with h' | ⟨hceq, h'⟩
        · exact (ih r h').cons c
        · have hmem : '>' ∈ collapseWsF n r := List.singleton_sublist.mp h'
          rcases collapseWsF_mem n r '>' hmem with h'' | h''
          · rw [hceq]
            exact (List.singleton_sublist.mpr h'').cons₂ '<'
          · cases h''

/-- The block-removal scans only ever drop characters. -/
theorem subBlockF_sublist (op cl : List Char) :
    ∀ (n : Nat) (s : List Char), List.Sublist (subBlockF op cl n s) s := by
  intro n
  induction n with
  | zero => intro s; exact List.Sublist.refl s
  | succ n ih =>
    intro s
    cases s with
    | nil => exact List.Sublist.refl []
    | cons c r =>
      rw [subBlockF]
      by_cases hop : startsWithL op (c :: r) = true
      · rw [if_pos hop]
        cases hsp : splitOnSub cl ((c :: r).drop op.length) with
        | some ab =>
          obtain ⟨w, rest⟩ := ab
          have hsuffix : List.IsSuffix rest ((c :: r).drop op.length) :=
            ⟨w ++ cl, (splitOnSub_eq_some hsp).symm⟩
          exact (ih rest).trans
            (hsuffix.sublist.trans (List.drop_suffix op.length (c :: r)).sublist)
        | none => exact (ih r).cons₂ c
      · rw [if_neg hop]
        exact (ih r).cons₂ c

/-- `str.strip()` only drops characters. -/
theorem pyStripL_sublist (s : List Char) : List.Sublist (pyStripL s) s := by
  rw [pyStripL]
  have h1 : List.Sublist ((s.dropWhile isPySpace).reverse.dropWhile isPySpace)
      (s.dropWhile isPySpace).reverse := dropWhile_sublist' isPySpace _
  have h2 := h1.reverse
  rw [List.reverse_reverse] at h2
  exact h2.trans (dropWhile_sublist' isPySpace s)

/-- C5 counterexample: the output can contain `![` — a bare `![` with no
closing link part passes through every step unchanged. -/
theorem c5_bang_bracket_counterexample :
    clean_and_format_content ['!', '['] = ['!', '['] ∧
    List.IsInfix ['!', '['] (clean_and_format_content ['!', '[']) :=
  ⟨by decide, ⟨[], [], by decide⟩⟩

/-- C5 (amended): for every input, the cleaned output never contains a raw
angle-bracket tag pattern — no `<` is later closed by a `>` — and in
particular never contains the substring `<details>`.  (The `![` part of the
original claim is dropped: it fails, see the counterexample.) -/
theorem c5_no_raw_tags (s : List Char) :
    ¬ List.Sublist ['<', '>'] (clean_and_format_content s) ∧
    ¬ List.IsInfix "<details>".data (clean_and_format_content s) := by
  have h5 : ¬ List.Sublist ['<', '>']
      (subTags (subLink (subImg (subSources (subDetails s))))) :=
    subTagsF_no_tag _ _ (Nat.le_refl _)
  have h6 : ¬ List.Sublist ['<', '>']
      (subMermaid (subTags (subLink (subImg (subSources (subDetails s)))))) :=
    fun h => h5 (h.trans (subBlockF_sublist _ _ _ _))
  have h7 : ¬ List.Sublist ['<', '>']
      (collapseWs (subMermaid (subTags (subLink (subImg (subSources (subDetails s))))))) :=
    fun h => h6 (collapseWsF_lg_transfer _ _ h)
  have h9 : ¬ List.Sublist ['<', '>'] (clean_and_format_content s) := by
    rw [clean_and_format_content, subBlank,
      subBlankF_id _ _ (collapseWs_no_newline _)]
    intro h
    exact h7 (h.trans (pyStripL_sublist _))
  refine ⟨h9, fun hinf => ?_⟩
  exact h9 ((by decide : List.Sublist ['<', '>'] "<details>".data).trans hinf.sublist)

/-- Witness for the amended C5 theorem at a concrete input. -/
theorem c5_no_raw_tags_witness :
    ¬ List.Sublist ['<', '>'] (clean_and_format_content "a<b".data) :=
  (c5_no_raw_tags "a<b".data).1

/-! ## Claim C2 -/

/-- C2 counterexample: the cleaner is not idempotent.  On
`` `Sources:\n[a](b)` `` the first pass only collapses the newline to a
space, which makes the citation pattern match on the second pass and vanish
entirely. -/
theorem c2_not_idempotent_counterexample :
    clean_and_format_content (clean_and_format_content "`Sources:\n[a](b)`".data) ≠
      clean_and_format_content "`Sources:\n[a](b)`".data := by
  decide

/-- A block-removal scan whose opening marker starts with an absent
character changes nothing. -/
theorem subBlockF_id (o : Char) (ops cl : List Char) :
    ∀ (n : Nat) (s : List Char), o ∉ s → subBlockF (o :: ops) cl n s = s := by
  intro n
  induction n with
  | zero => intro s _; rfl
  | succ n ih =>
    intro s hs
    cases s with
    | nil => rfl
    | cons c r =>
      have hco : ¬ startsWithL (o :: ops) (c :: r) = true := by
        intro h
        simp only [startsWithL, Bool.and_eq_true, decide_eq_true_eq] at h
        exact hs (h.1 ▸ List.mem_cons_self c r)
      rw [subBlockF, if_neg hco, ih r (fun h => hs (List.mem_cons_of_mem c h))]

/-- The citation-removal scan changes nothing when no backtick occurs. -/
theorem subSourcesF_id :
    ∀ (n : Nat) (s : List Char), '`' ∉ s → subSourcesF n s = s := by
  intro n
  induction n with
  | zero => intro s _; rfl
  | succ n ih =>
    intro s hs
    cases s with
    | nil => rfl
    | cons c r =>
      have hm : matchSources (c :: r) = none := by
        rw [matchSources]
        refine if_neg (fun h => hs ?_)
        rw [h]
        exact List.mem_cons_self '`' r
      rw [subSourcesF, hm, ih r (fun h => hs (List.mem_cons_of_mem c h))]

/-- The image-removal scan changes nothing when no `[` occurs. -/
theorem subImgF_id :
    ∀ (n : Nat) (s : List Char), '[' ∉ s → subImgF n s = s := by
  intro n
  induction n with
  | zero => intro s _; rfl
  | succ n ih =>
    intro s hs
    cases s with
    | nil => rfl
    | cons c r =>
      have hm : matchImg (c :: r) = none := by
        cases r with
        | nil => rfl
        | cons b t =>
          rw [matchImg]
          refine if_neg (fun h => ?_)
          simp only [Bool.and_eq_true, decide_eq_true_eq] at h
          exact hs (h.2 ▸ List.mem_cons_of_mem c (List.mem_cons_self b t))
      rw [subImgF, hm, ih r (fun h => hs (List.mem_cons_of_mem c h))]

/-- The link-unwrapping scan changes nothing when no `[` occurs. -/
theorem subLinkF_id :
    ∀ (n : Nat) (s : List Char), '[' ∉ s → subLinkF n s = s := by
  intro n
  induction n with
  | zero => intro s _; rfl
  | succ n ih =>
    intro s hs
    cases s with
    | nil => rfl
    | cons c r =>
      have hc : ¬ c = '[' := fun h => hs (h ▸ List.mem_cons_self c r)
      rw [subLinkF, if_neg hc, ih r (fun h => hs (List.mem_cons_of_mem c h))]

/-- The tag-removal scan changes nothing when no `<` occurs. -/
theorem subTagsF_id :
    ∀ (n : Nat) (s : List Char), '<' ∉ s → subTagsF n s = s := by
  intro n
  induction n with
  | zero => intro s _; rfl
  | succ n ih =>
    intro s hs
    cases s with
    | nil => rfl
    | cons c r =>
      have hc : ¬ c = '<' := fun h => hs (h ▸ List.mem_cons_self c r)
      rw [subTagsF, if_neg hc, ih r (fun h => hs (List.mem_cons_of_mem c h))]

theorem details_open_cons : "<details>".data = '<' :: "details>".data := by decide

theorem mermaid_open_cons : "```mermaid".data = '`' :: "``mermaid".data := by decide

/-- On input without `<`, backtick, or `[`, the whole pipeline reduces to
whitespace collapsing followed by the trim. -/
theorem clean_restricted (s : List Char)
    (h1 : '<' ∉ s) (h2 : '`' ∉ s) (h3 : '[' ∉ s) :
    clean_and_format_content s = pyStripL (collapseWs s) := by
  rw [clean_and_format_content]
  rw [subDetails, details_open_cons, subBlockF_id _ _ _ _ s h1]
  rw [subSources, subSourcesF_id _ s h2]
  rw [subImg, subImgF_id _ s h3]
  rw [subLink, subLinkF_id _ s h3]
  rw [subTags, subTagsF_id _ s h1]
  rw [subMermaid, mermaid_open_cons, subBlockF_id _ _ _ _ s h2]
  rw [subBlank, subBlankF_id _ _ (collapseWs_no_newline s)]

/-- The head of a `dropWhile` result fails the predicate. -/
theorem dropWhile_head_false (p : Char → Bool) :
    ∀ (l : List Char) (d : Char) (t : List Char), l.dropWhile p = d :: t → p d = false := by
  intro l
  induction l with
  | nil => intro d t h; cases h
  | cons c r ih =>
    intro d t h
    rw [List.dropWhile_cons] at h
    by_cases hc : p c = true
    · rw [if_pos hc] at h
      exact ih d t h
    · rw [if_neg hc] at h
      injection h with h1 _
      rw [← h1]
      exact Bool.eq_false_iff.mpr hc

/-- Collapsing a whitespace-stripped list yields nothing or a non-space
head. -/
theorem collapseWs_dropWhile_head (r : List Char) :
    collapseWs (r.dropWhile isPySpace) = [] ∨
    ∃ d t, collapseWs (r.dropWhile isPySpace) = d :: t ∧ isPySpace d = false := by
  cases h : r.dropWhile isPySpace with
  | nil => exact Or.inl rfl
  | cons d t =>
    have hd := dropWhile_head_false isPySpace r d t h
    refine Or.inr ⟨d, collapseWs t, ?_, hd⟩
    rw [collapseWs_cons, if_neg (fun hh => by rw [hd] at hh; cases hh)]

/-- Whitespace collapsing is idempotent. -/
theorem collapseWs_idem_aux :
    ∀ (n : Nat) (s : List Char), s.length ≤ n →
      collapseWs (collapseWs s) = collapseWs s := by
  intro n
  induction n with
  | zero =>
    intro s hs
    rw [List.eq_nil_of_length_eq_zero (Nat.le_zero.mp hs)]
    rfl
  | succ n ih =>
    intro s hs
    cases s with
    | nil => rfl
    | cons c r =>
      have hrn : r.length ≤ n := by simpa using hs
      rw [collapseWs_cons]
      by_cases hsp : isPySpace c = true
      · rw [if_pos hsp, collapseWs_cons, if_pos (by decide : isPySpace ' ' = true)]
        have hdw : (collapseWs (r.dropWhile isPySpace)).dropWhile isPySpace =
            collapseWs (r.dropWhile isPySpace) := by
          rcases collapseWs_dropWhile_head r with h' | ⟨d, t, h', hd⟩
          · rw [h']
            rfl
          · rw [h', List.dropWhile_cons, if_neg (fun hh => by rw [hd] at hh; cases hh)]
        rw [hdw,
          ih (r.dropWhile isPySpace) (Nat.le_trans (length_dropWhile_le' isPySpace r) hrn)]
      · rw [if_neg hsp, collapseWs_cons, if_neg hsp, ih r hrn]

/-- Whitespace collapsing is idempotent (top level). -/
theorem collapseWs_idem (s : List Char) :
    collapseWs (collapseWs s) = collapseWs s :=
  collapseWs_idem_aux s.length s (Nat.le_refl _)

/-- A collapse fixed point stays one after dropping its head. -/
theorem norm_tail {c : Char} {r : List Char} (h : collapseWs (c :: r) = c :: r) :
    collapseWs r = r := by
  rw [collapseWs_cons] at h
  by_cases hsp : isPySpace c = true
  · rw [if_pos hsp] at h
    injection h with _ h2
    rw [← h2]
    exact collapseWs_idem _
  · rw [if_neg hsp] at h
    injection h with h1 h2

/-- In a collapse fixed point, a whitespace head is a single space followed
by a non-space (or nothing). -/
theorem norm_space_head {c : Char} {r : List Char}
    (h : collapseWs (c :: r) = c :: r) (hsp : isPySpace c = true) :
    c = ' ' ∧ (r = [] ∨ ∃ d t, r = d :: t ∧ isPySpace d = false) := by
  rw [collapseWs_cons, if_pos hsp] at h
  injection h with h1 h2
  refine ⟨h1.symm, ?_⟩
  rcases collapseWs_dropWhile_head r with h' | ⟨d, t, h', hd⟩
  · exact Or.inl (by rw [← h2, h'])
  · exact Or.inr ⟨d, t, by rw [← h2, h'], hd⟩

/-- Collapse fixed points are preserved by stripping leading whitespace. -/
theorem norm_dropWhile {s : List Char} (h : collapseWs s = s) :
    collapseWs (s.dropWhile isPySpace) = s.dropWhile isPySpace := by
  induction s with
  | nil => rfl
  | cons c r ih =>
    rw [List.dropWhile_cons]
    by_cases hsp : isPySpace c = true
    · rw [if_pos hsp]
      exact ih (norm_tail h)
    · rw [if_neg hsp]
      exact h

/-- Collapse fixed points are preserved by stripping trailing whitespace. -/
theorem norm_stripTrailing {s : List Char} (h : collapseWs s = s) :
    collapseWs (stripTrailing s) = stripTrailing s := by
  induction s with
  | nil => rfl
  | cons c r ih =>
    simp only [stripTrailing]
    split
    · rfl
    · rename_i hcond
      by_cases hsp : isPySpace c = true
      · obtain ⟨hce, hr⟩ := norm_space_head h hsp
        have hst : stripTrailing r ≠ [] := by
          intro hnil
          exact hcond (by rw [hnil, hsp]; rfl)
        rcases hr with hr | ⟨d, t, hr, hd⟩
        · exact absurd (by rw [hr]; rfl) hst
        · have hdt : stripTrailing r = d :: stripTrailing t := by
            rw [hr]
            simp only [stripTrailing]
            rw [if_neg (fun hh => by
              simp only [Bool.and_eq_true] at hh
              rw [hd] at hh
              exact Bool.noConfusion hh.2)]
          rw [hdt, collapseWs_cons, if_pos hsp, List.dropWhile_cons,
            if_neg (fun hh => by rw [hd] at hh; cases hh), ← hdt,
            ih (norm_tail h), ← hce]
      · rw [collapseWs_cons, if_neg hsp, ih (norm_tail h)]

/-- Right-end stripping is idempotent. -/
theorem stripTrailing_idem (s : List Char) :
    stripTrailing (stripTrailing s) = stripTrailing s := by
  induction s with
  | nil => rfl
  | cons c r ih =>
    simp only [stripTrailing]
    split
    · rfl
    · rename_i hcond
      simp only [stripTrailing, ih]
      rw [if_neg hcond]

/-- The right strip keeps the head character (or empties the list). -/
theorem stripTrailing_head (c : Char) (r : List Char) :
    stripTrailing (c :: r) = [] ∨ ∃ t, stripTrailing (c :: r) = c :: t := by
  simp only [stripTrailing]
  split
  · exact Or.inl rfl
  · exact Or.inr ⟨stripTrailing r, rfl⟩

/-- `str.strip()` is idempotent. -/
theorem pyStripL_idem (s : List Char) : pyStripL (pyStripL s) = pyStripL s := by
  rw [pyStripL_eq_stripTrailing, pyStripL_eq_stripTrailing]
  have hdw : (stripTrailing (s.dropWhile isPySpace)).dropWhile isPySpace =
      stripTrailing (s.dropWhile isPySpace) := by
    cases hh : s.dropWhile isPySpace with
    | nil => rw [show stripTrailing ([] : List Char) = [] from rfl]; rfl
    | cons d t =>
      have hd := dropWhile_head_false isPySpace s d t hh
      rcases stripTrailing_head d t with h' | ⟨u, h'⟩
      · rw [h']
        rfl
      · rw [h', List.dropWhile_cons, if_neg (fun hv => by rw [hd] at hv; cases hv)]
  rw [hdw, stripTrailing_idem]

/-- Collapse fixed points are preserved by the full trim. -/
theorem norm_pyStripL {s : List Char} (h : collapseWs s = s) :
    collapseWs (pyStripL s) = pyStripL s := by
  rw [pyStripL_eq_stripTrailing]
  exact norm_stripTrailing (norm_dropWhile h)

/-- Characters of the reduced pipeline output come from the input or are
spaces. -/
theorem clean_restricted_mem {s : List Char} {c : Char}
    (hc : c ∈ pyStripL (collapseWs s)) : c ∈ s ∨ c = ' ' :=
  collapseWsF_mem s.length s c ((pyStripL_sublist _).subset hc)

/-- C2 (amended): the cleaner is idempotent on every input that contains
none of `<`, backtick, and `[` (no markup triggers).  In general it is not
idempotent — see the counterexample. -/
theorem c2_idempotent_on_plain_text (s : List Char)
    (h1 : '<' ∉ s) (h2 : '`' ∉ s) (h3 : '[' ∉ s) :
    clean_and_format_content (clean_and_format_content s) =
      clean_and_format_content s := by
  rw [clean_restricted s h1 h2 h3]
  have g1 : '<' ∉ pyStripL (collapseWs s) := fun h =>
    (clean_restricted_mem h).elim (fun hh => h1 hh) (fun hh => absurd hh (by decide))
  have g2 : '`' ∉ pyStripL (collapseWs s) := fun h =>
    (clean_restricted_mem h).elim (fun hh => h2 hh) (fun hh => absurd hh (by decide))
  have g3 : '[' ∉ pyStripL (collapseWs s) := fun h =>
    (clean_restricted_mem h).elim (fun hh => h3 hh) (fun hh => absurd hh (by decide))
  rw [clean_restricted _ g1 g2 g3, norm_pyStripL (collapseWs_idem s), pyStripL_idem]

/-- Witness for the amended C2 theorem at a concrete plain-text input. -/
theorem c2_idempotent_on_plain_text_witness :
    clean_and_format_content (clean_and_format_content "a  b ".data) =
      clean_and_format_content "a  b ".data :=
  c2_idempotent_on_plain_text "a  b ".data (by decide) (by decide) (by decide)

end WikiProc
